import Mathlib

/-!
Verification of the jssg static-site generator core.

The definitions below are shallow embeddings of the Python source files
`src/jssg/pathmap.py`, `src/jssg/__init__.py`, `src/jssg/build_env.py`,
`src/jssg/execution_rule.py` and `src/jssg.py`.  Paths are modelled as raw
character lists where character-level reasoning is needed.  The file is laid
out with all definitions first, followed by the theorems.
-/

namespace Jssg

/-! ### Path transforms (`pathmap.py`, `__init__.py`)

`pathlib.PurePosixPath` is modelled on character lists.  The constructor
normalisation performed by `pathlib` (collapsing `//` and `./` segments) is
not modelled: inputs are taken to be already-normalised POSIX relative paths,
which is the shape of every path the repository feeds these functions (they
come from `list_all_files`, which emits normalised relative paths). -/

/-- Split `l` at the last occurrence of `sep`: `some (pre, post)` with
`l = pre ++ sep :: post` and `sep ∉ post`, or `none` when `sep ∉ l`.
This models the `str.rfind` scan `pathlib` uses for `name` and `suffix`. -/
def splitLast (sep : Char) : List Char → Option (List Char × List Char)
  | [] => none
  | c :: cs =>
    match splitLast sep cs with
    | some (pre, post) => some (c :: pre, post)
    | none => if c = sep then some ([], cs) else none

/-- The directory part (including its trailing `/`) and the final component of
a path, as `pathlib` computes `parent` and `name`. -/
def nameSplit (p : List Char) : List Char × List Char :=
  match splitLast '/' p with
  | some (pre, post) => (pre ++ ['/'], post)
  | none => ([], p)

/-- `PurePosixPath(...).suffix`: the final component from its last dot onward,
provided that dot is neither the first nor the last character of the name
(`pathlib`: `0 < name.rfind('.') < len(name) - 1`). -/
def pathSuffix (p : List Char) : List Char :=
  match splitLast '.' (nameSplit p).2 with
  | some (pre, post) => if pre ≠ [] ∧ post ≠ [] then '.' :: post else []
  | none => []

/-- `PurePosixPath(...).with_suffix(suff)`: drop the current suffix of the
final component (if any) and append `suff`.  The `ValueError` checks pathlib
performs on malformed replacement suffixes are not modelled; the repository
only passes `""` or `"." + ext`-shaped suffixes. -/
def withSuffix (p : List Char) (suff : List Char) : List Char :=
  (nameSplit p).1 ++ (nameSplit p).2.take ((nameSplit p).2.length - (pathSuffix p).length) ++ suff

/-- Bounded iteration of `while path.suffix: path = path.with_suffix('')`
(`pathmap.replace_extensions`).  The fuel argument bounds the number of loop
iterations; each iteration removes a nonempty suffix, so `p.length` iterations
always suffice. -/
def stripGo : Nat → List Char → List Char
  | 0, p => p
  | fuel + 1, p => if pathSuffix p ≠ [] then stripGo fuel (withSuffix p []) else p

/-- The `while path.suffix` loop of `replace_extensions`, run to completion. -/
def stripSuffixes (p : List Char) : List Char :=
  stripGo p.length p

/-- `pathmap.replace_extensions` (and the closure built by
`jssg.replace_extensions` in `__init__.py`): strip every suffix, then append
the replacement suffix; `as_posix` is the identity on the normalised paths
modelled here. -/
def replace_extensions (fn : String) (suff : String) : String :=
  String.mk (withSuffix (stripSuffixes fn.data) suff.data)

/-- `pathmap.remove_extensions`. -/
def remove_extensions (fn : String) : String :=
  replace_extensions fn ""

/-- `pathmap.remove_internal_extensions` (`__init__.py` is identical): replace
all extensions with the path's own (final) suffix. -/
def remove_internal_extensions (fn : String) : String :=
  replace_extensions fn (String.mk (pathSuffix fn.data))

/-- A file name consisting of a stem `b` followed by the dotted suffixes
`sufs`: `b.s₁.s₂⋯.sₖ`. -/
def dottedName (b : List Char) (sufs : List (List Char)) : List Char :=
  b ++ (sufs.map (fun t => '.' :: t)).flatten

/-- Hypothesis bundle for the multi-suffix theorems: `d` is a directory
prefix (empty, or ending in a slash), `b` is a nonempty dot-free stem, and
each suffix component is nonempty, dot-free and slash-free. -/
def goodParts (d b : List Char) (sufs : List (List Char)) : Prop :=
  (d = [] ∨ ∃ d', d = d' ++ ['/']) ∧ b ≠ [] ∧ '.' ∉ b ∧ '/' ∉ b ∧
    ∀ t ∈ sufs, t ≠ [] ∧ '.' ∉ t ∧ '/' ∉ t

/-! ### Glob matching and rule lookup (`fnmatch`, `build_env.py`, `__init__.py`)

`fnmatch.fnmatch` translates the pattern to a regular expression (`*` ↦ `.*`,
`?` ↦ `.`, `[...]` ↦ a character class, everything else literal) and matches
it against the whole path; `os.path.normcase` is the identity on POSIX.  The
matcher below implements those semantics directly on character lists.  It
recurses with a fuel argument bounding the recursion depth: every recursive
call consumes at least one pattern character, so `pattern.length + 1` fuel
always suffices (the fuel-exhausted branch is unreachable). -/

/-- Scan a bracket-class body up to the first `]`: `some (content, rest)`. -/
def scanClose : List Char → Option (List Char × List Char)
  | [] => none
  | c :: cs =>
    if c = ']' then some ([], cs)
    else (scanClose cs).map (fun pr => (c :: pr.1, pr.2))

/-- Parse a glob character class after the opening `[`: negation flag, class
content, and the remaining pattern.  A `]` directly after `[` or `[!` is
literal content; `none` when there is no closing `]` (then `[` is literal). -/
def parseBracket (ps : List Char) : Option (Bool × List Char × List Char) :=
  match ps with
  | '!' :: ps1 =>
    match ps1 with
    | ']' :: t => (scanClose t).map (fun pr => (true, ']' :: pr.1, pr.2))
    | _ => (scanClose ps1).map (fun pr => (true, pr.1, pr.2))
  | _ =>
    match ps with
    | ']' :: t => (scanClose t).map (fun pr => (false, ']' :: pr.1, pr.2))
    | _ => (scanClose ps).map (fun pr => (false, pr.1, pr.2))

/-- Membership of a character in a parsed class body, with `a-b` ranges. -/
def inClass : List Char → Char → Bool
  | a :: '-' :: b :: rest, c => (a ≤ c && c ≤ b) || inClass rest c
  | a :: rest, c => (a == c) || inClass rest c
  | [], _ => false

/-- Glob matching with fuel (see the section comment): pattern, then string. -/
def globGo : Nat → List Char → List Char → Bool
  | 0, _, _ => false
  | _ + 1, [], s => s.isEmpty
  | fuel + 1, '*' :: ps, s =>
    (List.range (s.length + 1)).any (fun i => globGo fuel ps (s.drop i))
  | fuel + 1, '?' :: ps, s =>
    match s with
    | [] => false
    | _ :: s' => globGo fuel ps s'
  | fuel + 1, '[' :: ps, s =>
    match parseBracket ps with
    | none =>
      match s with
      | [] => false
      | c :: s' => ('[' == c) && globGo fuel ps s'
    | some (neg, cls, rest) =>
      match s with
      | [] => false
      | c :: s' => (if neg then !(inClass cls c) else inClass cls c) && globGo fuel rest s'
  | fuel + 1, c :: ps, s =>
    match s with
    | [] => false
    | c' :: s' => (c == c') && globGo fuel ps s'

/-- `fnmatch.fnmatch(name, pat)` on POSIX. -/
def fnmatch (name pat : String) : Bool :=
  globGo (pat.data.length + 1) pat.data name.data

/-- A `MATCH_RULE`: a glob string, or a group of glob strings.  The source
(`_match_single_rule`) recurses through arbitrarily nested tuples; the spec
and the claims only involve one level of grouping, which is what is modelled
here. -/
inductive Pattern where
  | str (s : String)
  | group (ss : List String)
deriving DecidableEq

/-- `_match_single_rule` (`build_env.py` / `__init__.py`): a string pattern
glob-matches the path; a group matches if any member does (short-circuit). -/
def matchSingleRule (r : Pattern) (path : String) : Bool :=
  match r with
  | Pattern.str s => fnmatch path s
  | Pattern.group ss => ss.any (fun s => fnmatch path s)

/-- `first_matching_rule(rules, path, default)`: the result paired with the
first matching pattern, else `default`. -/
def firstMatchingRule {α : Type} (rules : List (Pattern × α)) (path : String) (default : α) : α :=
  match rules with
  | [] => default
  | (r, result) :: rest =>
    if matchSingleRule r path then result else firstMatchingRule rest path default

/-! ### The build pass (`build_env.py`)

`build` is embedded as a trace semantics: the pass is pure except for the
calls it makes into listeners and deferred actions, so the embedding records
those calls as an event list.  A content transform (execution rule) is
represented by the observation data it returns — the value the pass feeds to
the listeners (`ExecutionRule.wrap` only affects what that value is, so it is
absorbed into the function) — while its deferred action, an opaque closure,
is identified by the `(input, output)` pair that produced it; running the
action with the exec state is recorded as an `Event.act` carrying that state.
The `fs` capability object threaded through execution rules plays no part in
which events occur or in their order, and is not modelled here. -/

deriving instance DecidableEq for Except

/-- A path map (`PATHMAP`), from input path to output path. -/
abbrev PathMap : Type := String → String

/-- The observation-data component of an execution rule: what
`rule(fs, f, outf)` returns as its second element. -/
abbrev ContentData (δ : Type) : Type := String → String → Option δ

/-- A listener: the optional `on_data_return` and `before_execute` hooks
(present according to the `hasattr` flags), a state threaded through
`on_data_return`, and the value `before_execute` returns. -/
structure Listener (σ ρ δ : Type) where
  init : σ
  hasOnData : Bool
  onData : σ → String → String → δ → σ
  hasBeforeExecute : Bool
  beforeExecute : σ → ρ

/-- One recorded interaction of the build pass. -/
inductive Event (δ ρ : Type) where
  | onData (listener inf outf : String) (d : δ)
  | beforeExecute (listener : String)
  | act (inf outf : String) (state : List (String × ρ))
deriving DecidableEq

/-- Whether an event is the invocation of a deferred action. -/
def Event.isAct {δ ρ : Type} : Event δ ρ → Bool
  | Event.act _ _ _ => true
  | _ => false

/-- `_lazy_evaluate_rules` over `match_files_to_rules`: for each file, look up
the first matching rule; a missing rule (no match, or the skip marker `None`)
yields nothing; otherwise compute the output path, run the rule, and yield the
`(f, outf, data)` triple together with the `(f, outf)` token identifying the
deferred execution. -/
def lazyEvaluateRules {δ : Type}
    (rules : List (Pattern × Option (PathMap × ContentData δ)))
    (files : List String) :
    List ((String × String × Option δ) × (String × String)) :=
  files.filterMap fun f =>
    match firstMatchingRule rules f none with
    | none => none
    | some (pm, ct) => some ((f, pm f, ct f (pm f)), (f, pm f))

/-- Deliver one `(inf, outf, data)` triple to every listener that has an
`on_data_return` hook, in listener order: the events emitted and the updated
listener states. -/
def notifyStep {σ ρ δ : Type} (inf outf : String) (d : δ)
    (ls : List (String × Listener σ ρ δ × σ)) :
    List (Event δ ρ) × List (String × Listener σ ρ δ × σ) :=
  (ls.filterMap fun e =>
      if e.2.1.hasOnData then some (Event.onData e.1 inf outf d) else none,
    ls.map fun e =>
      (e.1, e.2.1, if e.2.1.hasOnData then e.2.1.onData e.2.2 inf outf d else e.2.2))

/-- The data-delivery loop of `_notify_listeners`: triples with `None` data
are skipped. -/
def notifyData {σ ρ δ : Type} :
    List (String × String × Option δ) → List (String × Listener σ ρ δ × σ) →
      List (Event δ ρ) × List (String × Listener σ ρ δ × σ)
  | [], ls => ([], ls)
  | (_, _, none) :: rest, ls => notifyData rest ls
  | (inf, outf, some d) :: rest, ls =>
    ((notifyStep inf outf d ls).1 ++ (notifyData rest (notifyStep inf outf d ls).2).1,
      (notifyData rest (notifyStep inf outf d ls).2).2)

/-- The `before_execute` calls of `_notify_listeners`, in listener order. -/
def finalizeEvents {σ ρ δ : Type} (ls : List (String × Listener σ ρ δ × σ)) :
    List (Event δ ρ) :=
  ls.filterMap fun e =>
    if e.2.1.hasBeforeExecute then some (Event.beforeExecute e.1) else none

/-- The exec-state map assembled by `_notify_listeners`: one entry per
listener with a `before_execute` hook. -/
def finalizeState {σ ρ δ : Type} (ls : List (String × Listener σ ρ δ × σ)) :
    List (String × ρ) :=
  ls.filterMap fun e =>
    if e.2.1.hasBeforeExecute then some (e.1, e.2.1.beforeExecute e.2.2) else none

/-- Pair every registered listener with its initial state. -/
def initStates {σ ρ δ : Type} (listeners : List (String × Listener σ ρ δ)) :
    List (String × Listener σ ρ δ × σ) :=
  listeners.map fun e => (e.1, e.2, e.2.init)

/-- `_notify_listeners(dat, listeners)`: deliver every non-`None` triple to
the listeners in file order, then call `before_execute` on every listener,
returning the emitted events and the exec state. -/
def notifyListeners {σ ρ δ : Type} (dat : List (String × String × Option δ))
    (listeners : List (String × Listener σ ρ δ)) :
    List (Event δ ρ) × List (String × ρ) :=
  ((notifyData dat (initStates listeners)).1 ++
      finalizeEvents (notifyData dat (initStates listeners)).2,
    finalizeState (notifyData dat (initStates listeners)).2)

/-- The exec state of a whole pass; `{}` when no listeners are registered
(`evaluate_rules` only calls `_notify_listeners` under `if listeners:`). -/
def execStateOf {σ ρ δ : Type}
    (rules : List (Pattern × Option (PathMap × ContentData δ)))
    (files : List String) (listeners : List (String × Listener σ ρ δ)) :
    List (String × ρ) :=
  if listeners.isEmpty then []
  else (notifyListeners ((lazyEvaluateRules rules files).map Prod.fst) listeners).2

/-- The events of the collection phase of a pass. -/
def phase1Events {σ ρ δ : Type}
    (rules : List (Pattern × Option (PathMap × ContentData δ)))
    (files : List String) (listeners : List (String × Listener σ ρ δ)) :
    List (Event δ ρ) :=
  if listeners.isEmpty then []
  else (notifyListeners ((lazyEvaluateRules rules files).map Prod.fst) listeners).1

/-- `build(indir, outdir, rules, files, ..., listeners)` as a trace: evaluate
every rule eagerly (the `zip(*gen)` in `evaluate_rules` materialises the whole
generator), notify the listeners, then run every deferred action with the exec
state.  When no file produces an execution the tuple unpacking
`dat, executions = zip(*...)` raises `ValueError` — the error value here. -/
def build {σ ρ δ : Type}
    (rules : List (Pattern × Option (PathMap × ContentData δ)))
    (files : List String) (listeners : List (String × Listener σ ρ δ)) :
    Except String (List (Event δ ρ)) :=
  match lazyEvaluateRules rules files with
  | [] => Except.error ("ValueError: not enough values to unpack (expected 2, got 0)")
  | p :: ps =>
    Except.ok (phase1Events rules files listeners ++
      ((p :: ps).map Prod.snd).map (fun e =>
        Event.act e.1 e.2 (execStateOf rules files listeners)))

/-- The `(file, output)` pairs that produce executions, in file enumeration
order. -/
def executedPairs {δ : Type}
    (rules : List (Pattern × Option (PathMap × ContentData δ)))
    (files : List String) : List (String × String) :=
  files.filterMap fun f =>
    (firstMatchingRule rules f none).map (fun pr => (f, pr.1 f))

/-- A listener for the build witnesses: sums observation data into a counter
and reports the total. -/
def sumListener : Listener Nat Nat Nat :=
  ⟨0, true, fun s _ _ d => s + d, true, fun s => s⟩

/-- A rule table for the build witnesses: `*.md` maps to an `.html` output
and observation data `5`; `*.tmp` carries the skip marker. -/
def buildRules0 : List (Pattern × Option (PathMap × ContentData Nat)) :=
  [(Pattern.str ("*.md"), some (fun f => f ++ (".html"), fun _ _ => some 5)),
    (Pattern.str ("*.tmp"), none)]

/-- Files for the build witnesses: two matches, one unmatched, one skipped. -/
def buildFiles0 : List String := [("a.md"), ("b.txt"), ("c.md"), ("d.tmp")]

/-- The registered listeners of the build witnesses. -/
def buildListeners0 : List (String × Listener Nat Nat Nat) := [(("agg"), sumListener)]

/-- The trace produced by the build witnesses. -/
def buildTrace0 : List (Event Nat Nat) :=
  [Event.onData ("agg") ("a.md") ("a.md.html") 5,
    Event.onData ("agg") ("c.md") ("c.md.html") 5,
    Event.beforeExecute ("agg"),
    Event.act ("a.md") ("a.md.html") [(("agg"), 10)],
    Event.act ("c.md") ("c.md.html") [(("agg"), 10)]]

/-! ### The sorted page aggregator (`jssg.py`, class `PageCollection`)

Python dicts are modelled as insertion-ordered association lists over a value
type `ν`.  Sort keys are compared through `LinearOrder ν`; Python instead
raises `TypeError` on records whose sort keys are not mutually comparable,
and such records are outside the model. -/

/-- A Python dict with `String` keys and `ν` values. -/
abbrev PyDict (ν : Type) : Type := List (String × ν)

/-- `d[k]`, as an `Option` (Python raises `KeyError` on `none`). -/
def dictGet {ν : Type} (d : PyDict ν) (k : String) : Option ν :=
  (d.find? (fun e => e.1 == k)).map Prod.snd

/-- `d[k] = v`: overwrite the existing entry in place, else append. -/
def dictSet {ν : Type} (d : PyDict ν) (k : String) (v : ν) : PyDict ν :=
  if d.any (fun e => e.1 == k) then d.map (fun e => if e.1 == k then (k, v) else e)
  else d ++ [(k, v)]

/-- `d.update(other)`: set every item of `other` in `d`, in order. -/
def dictUpdate {ν : Type} (d other : PyDict ν) : PyDict ν :=
  other.foldl (fun acc e => dictSet acc e.1 e.2) d

/-- `d.copy()`: allocate a fresh dict holding the same items, so that updating
the copy leaves the caller's dict untouched; on the pure values of the model
it is the identity. -/
def dictCopy {ν : Type} (d : PyDict ν) : PyDict ν := d

/-- The state of a `PageCollection`: the parallel `pages`/`keys` lists and the
configured sort key. -/
structure PageCollection (ν : Type) where
  pages : List (PyDict ν)
  keys : List ν
  sort_key : String
deriving DecidableEq

/-- The loop body of `bisect.bisect_left` (pure-Python reference
implementation: `while lo < hi: mid = (lo+hi)//2; ...`), with a fuel argument
bounding the number of iterations; `hi - lo` halves each time, so `a.length`
iterations always suffice, and when fuel runs out `lo ≥ hi` already holds. -/
def bisectGo {ν : Type} [LinearOrder ν] (a : List ν) (x : ν) : Nat → Nat → Nat → Nat
  | 0, lo, _ => lo
  | fuel + 1, lo, hi =>
    if lo < hi then
      if a.getD ((lo + hi) / 2) x < x then bisectGo a x fuel ((lo + hi) / 2 + 1) hi
      else bisectGo a x fuel lo ((lo + hi) / 2)
    else lo

/-- `bisect.bisect_left(a, x)`: leftmost insertion point for `x` in `a`. -/
def bisect_left {ν : Type} [LinearOrder ν] (a : List ν) (x : ν) : Nat :=
  bisectGo a x a.length 0 a.length

/-- `PageCollection.push(page_dict, additional_ctx)`: merge `additional_ctx`
into a copy of `page_dict` (when given), then insert the record at the
`bisect_left` position of its sort key.  Returns `none` when the sort key is
missing (Python: `KeyError`).  The second component of the result is the value
of the caller's `page_dict` after the call: the source updates a `.copy()`,
so that value is returned unchanged. -/
def PageCollection.push {ν : Type} [LinearOrder ν] (c : PageCollection ν)
    (page_dict : PyDict ν) (additional_ctx : Option (PyDict ν)) :
    Option (PageCollection ν × PyDict ν) :=
  let merged := match additional_ctx with
    | some ctx => dictUpdate (dictCopy page_dict) ctx
    | none => page_dict
  match dictGet merged c.sort_key with
  | none => none
  | some key =>
    some (⟨c.pages.insertIdx (bisect_left c.keys key) merged,
           c.keys.insertIdx (bisect_left c.keys key) key,
           c.sort_key⟩, page_dict)

/-- `PageCollection.history(count)`: iterate `reversed(self.pages)`, stopping
after `count` entries; `count = None` disables the break. -/
def PageCollection.history {ν : Type} (c : PageCollection ν) (count : Option Nat) :
    List (PyDict ν) :=
  match count with
  | none => c.pages.reverse
  | some n => c.pages.reverse.take n

/-- `PageCollection.all_pages()`: `history(count=len(self.pages))`. -/
def PageCollection.all_pages {ν : Type} (c : PageCollection ν) : List (PyDict ν) :=
  c.history (some c.pages.length)

/-- A fresh collection, as built by `PageCollection.__init__(sort_key)`. -/
def emptyCollection {ν : Type} (sk : String) : PageCollection ν :=
  ⟨[], [], sk⟩

/-- A sequence of `push(d, None)` calls, in order — the driver used to state
properties over every sequence of pushes. -/
def pushSeq {ν : Type} [LinearOrder ν] :
    PageCollection ν → List (PyDict ν) → Option (PageCollection ν)
  | c, [] => some c
  | c, d :: ds =>
    match c.push d none with
    | none => none
    | some (c', _) => pushSeq c' ds

/-- The sort key of a record, defaulting when absent (only used on records
that carry the key). -/
def keyOf {ν : Type} [Inhabited ν] (sk : String) (d : PyDict ν) : ν :=
  (dictGet d sk).getD default

/-- Specification-side order for claim C9 (refinement target, written from
the claim, not from the source): insert each record, in push order, after all
records with a greater-or-equal key — i.e. the stable descending sort by
`sk`, in which records with equal keys keep their insertion order. -/
def specStableDescOrder {ν : Type} [LinearOrder ν] [Inhabited ν] (sk : String)
    (ds : List (PyDict ν)) : List (PyDict ν) :=
  ds.foldl
    (fun l d =>
      l.takeWhile (fun e => decide (keyOf sk d ≤ keyOf sk e)) ++
        d :: l.dropWhile (fun e => decide (keyOf sk d ≤ keyOf sk e)))
    []

/-! ### File-map call-shape dispatch (`execution_rule.py`, `__init__.py`)

The three user-callable shapes are modelled as a tagged type; calling a
Python callable with the wrong number of positional arguments raises
`TypeError`, which the dispatchers catch in order to fall through to the next
shape.  (The `TODO` note in `execution_rule.py` acknowledges that a
`TypeError` raised inside a correctly-shaped callable would be mis-classified;
callables with such internal errors are outside the model.)  The file system
is a list of `(path, contents)` pairs; shape-1 and shape-2 callables act on
it opaquely. -/

/-- A file store; earlier entries shadow later ones. -/
abbrev Store : Type := List (String × String)

/-- The errors a dispatch can raise. -/
inductive PyErr where
  | typeError
  | nameError
  | ioError
deriving DecidableEq

/-- A user-supplied file-map callable, tagged by its arity. -/
inductive PyCallable where
  | twoArg (f : String → String → Store → Store)
  | threeArg (f : Store → String → String → Store)
  | oneArg (f : String → String)

/-- Call with two positional arguments (`f(inpath, outpath)`). -/
def callTwo : PyCallable → String → String → Store → Except PyErr Store
  | PyCallable.twoArg f, a, b, st => Except.ok (f a b st)
  | _, _, _, _ => Except.error PyErr.typeError

/-- Call with three positional arguments (`f(fs, inf, outf)`). -/
def callThree : PyCallable → String → String → Store → Except PyErr Store
  | PyCallable.threeArg f, a, b, st => Except.ok (f st a b)
  | _, _, _, _ => Except.error PyErr.typeError

/-- Call with one positional argument (`f(s)`). -/
def callOne : PyCallable → String → Except PyErr String
  | PyCallable.oneArg f, s => Except.ok (f s)
  | _, _ => Except.error PyErr.typeError

/-- `FileSys.resolve_in`: `pathlib.Path(indir, inf).as_posix()` on clean
relative paths. -/
def resolveIn (indir p : String) : String := indir ++ ("/") ++ p

/-- `FileSys.resolve_out`. -/
def resolveOut (outdir p : String) : String := outdir ++ ("/") ++ p

/-- Read a file from the store (a missing file is an `IOError` at the
caller). -/
def storeRead (st : Store) (p : String) : Option String :=
  (st.find? (fun e => e.1 == p)).map Prod.snd

/-- Write a file (`ensure_dir` has no observable effect on the store). -/
def storeWrite (st : Store) (p s : String) : Store := (p, s) :: st

/-- `execution_rule._execute_callable_as_filemap`: try
`f(fs.resolve_in(inpath), fs.resolve_out(outpath))`, fall back on `TypeError`
to `f(fs, inpath, outpath)`, and fall back again on `TypeError` to the
read-transform-write branch — whose code (lines 51 to 54) refers to the
undefined names `op`, `inf` and `outf`, so reaching it raises `NameError`
instead of performing the transform. -/
def executeCallableAsFilemap (f : PyCallable) (indir outdir inpath outpath : String)
    (st : Store) : Except PyErr Store :=
  match callTwo f (resolveIn indir inpath) (resolveOut outdir outpath) st with
  | Except.ok st' => Except.ok st'
  | Except.error PyErr.typeError =>
    match callThree f inpath outpath st with
    | Except.ok st' => Except.ok st'
    | Except.error PyErr.typeError => Except.error PyErr.nameError
    | Except.error e => Except.error e
  | Except.error e => Except.error e

/-- `FileMapper.execute` with `wrapped_execute` (`__init__.py`): the same
dispatch, but the paths are passed through unchanged (the caller already
resolved them through `execute_path_map`) and the third shape reads the
input, applies the callable to the contents, and writes the result to the
output path. -/
def fileMapperExecute (f : PyCallable) (inpath outpath : String) (st : Store) :
    Except PyErr Store :=
  match callTwo f inpath outpath st with
  | Except.ok st' => Except.ok st'
  | Except.error PyErr.typeError =>
    match callThree f inpath outpath st with
    | Except.ok st' => Except.ok st'
    | Except.error PyErr.typeError =>
      match storeRead st inpath with
      | none => Except.error PyErr.ioError
      | some s =>
        match callOne f s with
        | Except.ok outs => Except.ok (storeWrite st outpath outs)
        | Except.error e => Except.error e
    | Except.error e => Except.error e
  | Except.error e => Except.error e

/-- Invariant tying a collection state to the records pushed so far: the sort
key is unchanged, `keys` mirrors the sort keys of `pages`, `keys` is sorted
ascending, and the reversed page list realises the stable descending order of
the pushed records. -/
abbrev collInv {ν : Type} [LinearOrder ν] [Inhabited ν] (sk : String)
    (ds : List (PyDict ν)) (c : PageCollection ν) : Prop :=
  c.sort_key = sk ∧ c.keys = c.pages.map (keyOf sk) ∧ c.keys.Pairwise (· ≤ ·) ∧
    c.pages.reverse = specStableDescOrder sk ds

/-- The record sequence of the C5 example: sort keys `3`, `1`, `2`. -/
def sortedExample : List (PyDict Int) :=
  [[(("date"), 3)], [(("date"), 1)], [(("date"), 2)]]

/-- The collection state reached by pushing `sortedExample`. -/
def sortedExampleState : PageCollection Int :=
  ⟨[[(("date"), 1)], [(("date"), 2)], [(("date"), 3)]], [1, 2, 3], ("date")⟩

/-- A record sequence with a tie on the sort key (both `1`), for the C9
witness. -/
def tiesExample : List (PyDict Int) :=
  [[(("date"), 1), (("n"), 1)], [(("date"), 1), (("n"), 2)], [(("date"), 0), (("n"), 3)]]

/-- The collection state reached by pushing `tiesExample`. -/
def tiesResult : PageCollection Int :=
  ⟨[[(("date"), 0), (("n"), 3)], [(("date"), 1), (("n"), 2)], [(("date"), 1), (("n"), 1)]],
    [0, 1, 1], ("date")⟩

/-- The record of the C10 witness. -/
def c10d : PyDict Int := [(("date"), 1), (("href"), 5)]

/-- The additional context of the C10 witness; its `href` entry collides with
the record's own. -/
def c10ctx : PyDict Int := [(("href"), 9)]

/-- The collection state reached by the C10 witness push. -/
def c10st : PageCollection Int :=
  ⟨[[(("date"), 1), (("href"), 9)]], [1], ("date")⟩

/-- The rule table of the repository's own matcher test
(`jssg_test.TestOtherOperations.test_first_matching_rule`). -/
def matcherRules : List (Pattern × Nat) :=
  [(Pattern.str ("*.txt"), 1), (Pattern.str ("a/*.xyz"), 2),
    (Pattern.group [("*.xyz"), ("*.abc")], 3)]

/-- `matcherRules` with its two entries that do not match `b/c/x.xyz`
permuted. -/
def matcherRulesPerm : List (Pattern × Nat) :=
  [(Pattern.str ("a/*.xyz"), 2), (Pattern.str ("*.txt"), 1),
    (Pattern.group [("*.xyz"), ("*.abc")], 3)]

/-- A one-entry table used for the no-match conjunct of the C2 witness. -/
def skipRules : List (Pattern × Option Nat) :=
  [(Pattern.str ("*.txt"), some 1)]

/-! ## Theorems -/

/-! ### Path-splitting lemmas -/

theorem splitLast_of_not_mem {sep : Char} : ∀ {l : List Char}, sep ∉ l → splitLast sep l = none := by
  intro l h
  induction l with
  | nil => rfl
  | cons c cs ih =>
    rw [List.mem_cons, not_or] at h
    simp only [splitLast, ih h.2]
    exact if_neg fun hc => h.1 hc.symm

theorem splitLast_append {sep : Char} (a : List Char) {b : List Char} (h : sep ∉ b) :
    splitLast sep (a ++ sep :: b) = some (a, b) := by
  induction a with
  | nil => simp [splitLast, splitLast_of_not_mem h]
  | cons c cs ih => simp [splitLast, ih]

theorem splitLast_eq_some {sep : Char} : ∀ {l pre post : List Char},
    splitLast sep l = some (pre, post) → l = pre ++ sep :: post := by
  intro l
  induction l with
  | nil => intro pre post h; simp [splitLast] at h
  | cons c cs ih =>
    intro pre post h
    rw [splitLast] at h
    cases hcs : splitLast sep cs with
    | some pp =>
      rw [hcs] at h
      obtain ⟨a, b⟩ := pp
      simp only [Option.some.injEq, Prod.mk.injEq] at h
      obtain ⟨h1, h2⟩ := h
      subst h1; subst h2
      have := ih hcs
      simp [this]
    | none =>
      rw [hcs] at h
      by_cases hc : c = sep
      · rw [if_pos hc] at h
        simp only [Option.some.injEq, Prod.mk.injEq] at h
        obtain ⟨h1, h2⟩ := h
        subst h1; subst h2
        simp [hc]
      · rw [if_neg hc] at h
        exact absurd h (by simp)

theorem nameSplit_append {d nm : List Char}
    (hd : d = [] ∨ ∃ d', d = d' ++ ['/']) (hnm : '/' ∉ nm) :
    nameSplit (d ++ nm) = (d, nm) := by
  rcases hd with rfl | ⟨d', rfl⟩
  · simp [nameSplit, splitLast_of_not_mem hnm]
  · have he : d' ++ ['/'] ++ nm = d' ++ '/' :: nm := by simp
    rw [he, nameSplit, splitLast_append d' hnm]

theorem dottedName_nil (b : List Char) : dottedName b [] = b := by
  simp [dottedName]

theorem dottedName_concat (b : List Char) (s : List (List Char)) (t : List Char) :
    dottedName b (s ++ [t]) = dottedName b s ++ '.' :: t := by
  simp [dottedName]

theorem not_mem_dottedName {c : Char} {b : List Char} {sufs : List (List Char)}
    (hc : c ≠ '.') (hb : c ∉ b) (hs : ∀ t ∈ sufs, c ∉ t) :
    c ∉ dottedName b sufs := by
  simp only [dottedName, List.mem_append, not_or]
  refine ⟨hb, ?_⟩
  intro hmem
  rw [List.mem_flatten] at hmem
  obtain ⟨l, hl, hcl⟩ := hmem
  rw [List.mem_map] at hl
  obtain ⟨t, ht, rfl⟩ := hl
  rcases List.mem_cons.mp hcl with h | h
  · exact hc h
  · exact hs t ht h

theorem dottedName_ne_nil {b : List Char} (hb : b ≠ []) (sufs : List (List Char)) :
    dottedName b sufs ≠ [] := by
  simp [dottedName, hb]

theorem goodParts_sub {d b : List Char} {s : List (List Char)} {t : List Char}
    (h : goodParts d b (s ++ [t])) : goodParts d b s := by
  obtain ⟨h1, h2, h3, h4, h5⟩ := h
  exact ⟨h1, h2, h3, h4, fun u hu => h5 u (List.mem_append_left _ hu)⟩

theorem slash_not_mem_dotted {d b : List Char} {sufs : List (List Char)}
    (h : goodParts d b sufs) : '/' ∉ dottedName b sufs := by
  obtain ⟨-, -, -, h4, h5⟩ := h
  exact not_mem_dottedName (by decide) h4 (fun t ht => (h5 t ht).2.2)

theorem nameSplit_dotted {d b : List Char} {sufs : List (List Char)}
    (h : goodParts d b sufs) :
    nameSplit (d ++ dottedName b sufs) = (d, dottedName b sufs) :=
  nameSplit_append h.1 (slash_not_mem_dotted h)

theorem pathSuffix_stem {d b : List Char} (h : goodParts d b []) :
    pathSuffix (d ++ b) = [] := by
  have hb := h.2.2.1
  have hn : nameSplit (d ++ b) = (d, b) := by
    have := nameSplit_dotted h
    rwa [dottedName_nil] at this
  rw [pathSuffix, hn, splitLast_of_not_mem hb]

theorem pathSuffix_concat {d b : List Char} {s : List (List Char)} {t : List Char}
    (h : goodParts d b (s ++ [t])) :
    pathSuffix (d ++ dottedName b (s ++ [t])) = '.' :: t := by
  have ht := h.2.2.2.2 t (List.mem_append_right _ (List.mem_singleton_self t))
  have hn := nameSplit_dotted h
  rw [pathSuffix, hn]
  have hsplit : splitLast '.' (dottedName b (s ++ [t])) = some (dottedName b s, t) := by
    rw [dottedName_concat]
    exact splitLast_append _ ht.2.1
  rw [hsplit]
  exact if_pos ⟨dottedName_ne_nil h.2.1 s, ht.1⟩

theorem withSuffix_strip {d b : List Char} {s : List (List Char)} {t : List Char}
    (h : goodParts d b (s ++ [t])) :
    withSuffix (d ++ dottedName b (s ++ [t])) [] = d ++ dottedName b s := by
  have hn := nameSplit_dotted h
  rw [withSuffix, hn, pathSuffix_concat h]
  have hlen : (dottedName b (s ++ [t])).length - ('.' :: t).length = (dottedName b s).length := by
    rw [dottedName_concat]
    simp
  rw [hlen, dottedName_concat, List.take_left, List.append_nil]

theorem withSuffix_stem {d b suff : List Char} (h : goodParts d b []) :
    withSuffix (d ++ b) suff = d ++ b ++ suff := by
  have hn : nameSplit (d ++ b) = (d, b) := by
    have := nameSplit_dotted h
    rwa [dottedName_nil] at this
  rw [withSuffix, hn, pathSuffix_stem h]
  simp

theorem stripGo_dotted {d b : List Char} (sufs : List (List Char)) :
    ∀ fuel : Nat, sufs.length ≤ fuel → goodParts d b sufs →
      stripGo fuel (d ++ dottedName b sufs) = d ++ b := by
  induction sufs using List.reverseRecOn with
  | nil =>
    intro fuel _ h
    rw [dottedName_nil]
    cases fuel with
    | zero => rfl
    | succ n =>
      rw [stripGo, if_neg]
      simp [pathSuffix_stem h]
  | append_singleton s t ih =>
    intro fuel hf h
    have hf1 : 1 ≤ fuel := le_trans (by simp) hf
    obtain ⟨fuel, rfl⟩ : ∃ m, fuel = m + 1 := ⟨fuel - 1, by omega⟩
    rw [stripGo, if_pos, withSuffix_strip h]
    · exact ih fuel (by simpa using Nat.lt_succ_iff.mp (lt_of_lt_of_le (by simp) hf)) (goodParts_sub h)
    · rw [pathSuffix_concat h]
      simp

theorem sufs_length_le {b : List Char} (sufs : List (List Char)) :
    sufs.length ≤ (dottedName b sufs).length := by
  rw [dottedName, List.length_append]
  have : sufs.length ≤ ((sufs.map (fun t => '.' :: t)).flatten).length := by
    induction sufs with
    | nil => simp
    | cons u us ih =>
      simp only [List.map_cons, List.flatten_cons, List.length_append, List.length_cons]
      omega
  omega

theorem stripSuffixes_dotted {d b : List Char} {sufs : List (List Char)}
    (h : goodParts d b sufs) :
    stripSuffixes (d ++ dottedName b sufs) = d ++ b := by
  rw [stripSuffixes]
  refine stripGo_dotted sufs _ ?_ h
  calc sufs.length ≤ (dottedName b sufs).length := sufs_length_le sufs
    _ ≤ (d ++ dottedName b sufs).length := by simp

/-- C6: for every input path with `K` dotted suffixes, `replace_extensions`
with replacement suffix `.e` strips all `K` suffixes and appends exactly one
`.e` (for instance `path/abc.xyz.def` with `".txt"` maps to `path/abc.txt`). -/
theorem replace_extensions_strips_all (d b e : List Char) (sufs : List (List Char))
    (h : goodParts d b sufs) :
    replace_extensions (String.mk (d ++ dottedName b sufs)) (String.mk ('.' :: e)) =
      String.mk (d ++ b ++ '.' :: e) := by
  have hdata : (String.mk (d ++ dottedName b sufs)).data = d ++ dottedName b sufs := rfl
  rw [replace_extensions, hdata, stripSuffixes_dotted h]
  have hstem : goodParts d b [] := ⟨h.1, h.2.1, h.2.2.1, h.2.2.2.1, by simp⟩
  rw [show (String.mk ('.' :: e)).data = '.' :: e from rfl, withSuffix_stem hstem]

/-- Witness for C6 at the spec's example: `path/abc.xyz.def` with `".txt"`
maps to `path/abc.txt`. -/
theorem replace_extensions_strips_all_witness :
    replace_extensions (String.mk
        (("path/").data ++ dottedName ("abc").data [("xyz").data, ("def").data]))
      (String.mk ('.' :: ("txt").data)) =
      String.mk (("path/").data ++ ("abc").data ++ '.' :: ("txt").data) :=
  replace_extensions_strips_all ("path/").data ("abc").data ("txt").data
    [("xyz").data, ("def").data]
    ⟨Or.inr ⟨("path").data, by decide⟩, by decide, by decide, by decide, by decide⟩

/-- C7: for every input path with `K ≥ 1` dotted suffixes,
`remove_internal_extensions` keeps exactly the final suffix and removes the
others (for instance `path/abc.xyz.def` maps to `path/abc.def`; with a single
suffix the path is unchanged, the case `sufs = []` here). -/
theorem remove_internal_extensions_keeps_last (d b t : List Char) (sufs : List (List Char))
    (h : goodParts d b (sufs ++ [t])) :
    remove_internal_extensions (String.mk (d ++ dottedName b (sufs ++ [t]))) =
      String.mk (d ++ b ++ '.' :: t) := by
  rw [remove_internal_extensions, replace_extensions]
  have hdata : (String.mk (d ++ dottedName b (sufs ++ [t]))).data =
      d ++ dottedName b (sufs ++ [t]) := rfl
  rw [hdata, pathSuffix_concat h, stripSuffixes_dotted h]
  have hstem : goodParts d b [] := ⟨h.1, h.2.1, h.2.2.1, h.2.2.2.1, by simp⟩
  rw [show (String.mk ('.' :: t)).data = '.' :: t from rfl, withSuffix_stem hstem]

/-- Witness for C7 at the spec's example: `path/abc.xyz.def` maps to
`path/abc.def`. -/
theorem remove_internal_extensions_keeps_last_witness :
    remove_internal_extensions (String.mk
        (("path/").data ++ dottedName ("abc").data [("xyz").data, ("def").data])) =
      String.mk (("path/").data ++ ("abc").data ++ '.' :: ("def").data) :=
  remove_internal_extensions_keeps_last ("path/").data ("abc").data ("def").data
    [("xyz").data]
    ⟨Or.inr ⟨("path").data, by decide⟩, by decide, by decide, by decide, by decide⟩

/-! ### Dict lemmas -/

theorem dictGet_of_forall_ne {ν : Type} {d : PyDict ν} {k : String}
    (h : ∀ e ∈ d, e.1 ≠ k) : dictGet d k = none := by
  rw [dictGet]
  have hf : d.find? (fun e => e.1 == k) = none := by
    rw [List.find?_eq_none]
    intro e he
    simpa using h e he
  rw [hf]
  rfl

theorem find?_set_self {ν : Type} (k : String) (v : ν) :
    ∀ d : PyDict ν, d.any (fun e => e.1 == k) = true →
      (d.map (fun e => if e.1 == k then (k, v) else e)).find? (fun e => e.1 == k) =
        some (k, v) := by
  intro d
  induction d with
  | nil => intro h; simp at h
  | cons e es ih =>
    intro h
    rw [List.map_cons]
    cases he : (e.1 == k) with
    | true =>
      rw [if_pos rfl]
      exact @List.find?_cons_of_pos _ (fun e => e.1 == k) (k, v) _ (beq_self_eq_true k)
    | false =>
      have hes : es.any (fun e => e.1 == k) = true := by
        simpa [he] using h
      rw [if_neg Bool.false_ne_true,
        @List.find?_cons_of_neg _ (fun e => e.1 == k) e _ (by simp [he])]
      exact ih hes

theorem find?_set_ne {ν : Type} (k k' : String) (v : ν) (hne : k' ≠ k) :
    ∀ d : PyDict ν,
      (d.map (fun e => if e.1 == k then (k, v) else e)).find? (fun e => e.1 == k') =
        d.find? (fun e => e.1 == k') := by
  intro d
  induction d with
  | nil => rfl
  | cons e es ih =>
    rw [List.map_cons]
    cases he : (e.1 == k) with
    | true =>
      have hek : e.1 = k := by simpa using he
      have h1 : (e.1 == k') = false := beq_eq_false_iff_ne.mpr (hek ▸ Ne.symm hne)
      have h2 : ((k, v).1 == k') = false := beq_eq_false_iff_ne.mpr (Ne.symm hne)
      rw [if_pos rfl,
        @List.find?_cons_of_neg _ (fun e => e.1 == k') (k, v) _ (by simp [h2]),
        @List.find?_cons_of_neg _ (fun e => e.1 == k') e _ (by simp [h1])]
      exact ih
    | false =>
      rw [if_neg Bool.false_ne_true]
      cases he' : (e.1 == k') with
      | true =>
        rw [@List.find?_cons_of_pos _ (fun e => e.1 == k') e _ he',
          @List.find?_cons_of_pos _ (fun e => e.1 == k') e _ he']
      | false =>
        rw [@List.find?_cons_of_neg _ (fun e => e.1 == k') e _ (by simp [he']),
          @List.find?_cons_of_neg _ (fun e => e.1 == k') e _ (by simp [he'])]
        exact ih

theorem dictGet_dictSet_self {ν : Type} (d : PyDict ν) (k : String) (v : ν) :
    dictGet (dictSet d k v) k = some v := by
  rw [dictSet]
  by_cases hany : d.any (fun e => e.1 == k) = true
  · rw [if_pos hany, dictGet, find?_set_self k v d hany]
    rfl
  · rw [if_neg hany, dictGet, List.find?_append]
    have h1 : d.find? (fun e => e.1 == k) = none := by
      rw [List.find?_eq_none]
      intro x hx hpx
      exact hany (List.any_eq_true.mpr ⟨x, hx, hpx⟩)
    have h2 : ([(k, v)] : PyDict ν).find? (fun e => e.1 == k) = some (k, v) :=
      List.find?_cons_of_pos _ (beq_self_eq_true k)
    rw [h1, h2]
    rfl

theorem dictGet_dictSet_ne {ν : Type} (d : PyDict ν) (k k' : String) (v : ν)
    (hne : k' ≠ k) : dictGet (dictSet d k v) k' = dictGet d k' := by
  rw [dictSet]
  by_cases hany : d.any (fun e => e.1 == k) = true
  · rw [if_pos hany, dictGet, find?_set_ne k k' v hne d, dictGet]
  · rw [if_neg hany, dictGet, List.find?_append]
    have h2 : ([(k, v)] : PyDict ν).find? (fun e => e.1 == k') = none := by
      rw [List.find?_eq_none]
      intro x hx
      rw [List.mem_singleton] at hx
      subst hx
      simp [beq_eq_false_iff_ne.mpr (Ne.symm hne)]
    rw [h2, dictGet]
    cases d.find? (fun e => e.1 == k') <;> rfl

theorem dictGet_dictUpdate {ν : Type} (ctx : PyDict ν) :
    ∀ (d : PyDict ν) (k : String), (ctx.map Prod.fst).Nodup →
      dictGet (dictUpdate d ctx) k = (dictGet ctx k).elim (dictGet d k) some := by
  induction ctx with
  | nil =>
    intro d k _
    have : dictGet ([] : PyDict ν) k = none := rfl
    rw [dictUpdate]
    simp [this]
  | cons e rest ih =>
    intro d k hnd
    rw [List.map_cons, List.nodup_cons] at hnd
    obtain ⟨hnotin, hnd'⟩ := hnd
    have hupd : dictUpdate d (e :: rest) = dictUpdate (dictSet d e.1 e.2) rest := rfl
    rw [hupd, ih _ k hnd']
    by_cases hk : k = e.1
    · have hr : dictGet rest k = none := by
        refine dictGet_of_forall_ne fun u hu hequ => ?_
        have hm : (k : String) ∈ rest.map Prod.fst := hequ ▸ List.mem_map_of_mem Prod.fst hu
        rw [hk] at hm
        exact hnotin hm
      have hc : dictGet (e :: rest) k = some e.2 := by
        rw [dictGet, @List.find?_cons_of_pos _ (fun x => x.1 == k) e rest (by simp [hk])]
        rfl
      rw [hr, hc]
      simp only [Option.elim]
      rw [hk]
      exact dictGet_dictSet_self d e.1 e.2
    · have hc : dictGet (e :: rest) k = dictGet rest k := by
        rw [dictGet,
          @List.find?_cons_of_neg _ (fun x => x.1 == k) e rest
            (by simp; exact fun hh => hk hh.symm),
          dictGet]
      rw [dictGet_dictSet_ne d e.1 k e.2 hk, hc]

/-! ### bisect lemmas -/

theorem twLen_le_length {ν : Type} [LinearOrder ν] (a : List ν) (x : ν) :
    (a.takeWhile (fun y => decide (y < x))).length ≤ a.length :=
  (List.takeWhile_sublist _).length_le

theorem getD_lt_of_lt_twLen {ν : Type} [LinearOrder ν] {a : List ν} {x : ν} {i : Nat}
    (hi : i < (a.takeWhile (fun y => decide (y < x))).length) :
    a.getD i x < x := by
  have hia : i < a.length := lt_of_lt_of_le hi (twLen_le_length a x)
  rw [List.getD_eq_getElem a x hia]
  have hsplit := List.takeWhile_append_dropWhile (fun y => decide (y < x)) a
  have heq : a[i] = (a.takeWhile (fun y => decide (y < x)))[i] := by
    have h1 := List.getElem_of_eq hsplit.symm hia
    rw [h1]
    exact List.getElem_append_left hi
  rw [heq]
  have hmem : (List.takeWhile (fun y => decide (y < x)) a)[i] ∈
      List.takeWhile (fun y => decide (y < x)) a := List.getElem_mem hi
  exact of_decide_eq_true (@List.mem_takeWhile_imp _ (fun y => decide (y < x)) a _ hmem)

theorem le_of_mem_dropWhile_lt {ν : Type} [LinearOrder ν] (x : ν) :
    ∀ {l : List ν}, l.Pairwise (· ≤ ·) →
      ∀ b ∈ l.dropWhile (fun y => decide (y < x)), x ≤ b := by
  intro l
  induction l with
  | nil => intro _ b hb; simp [List.dropWhile] at hb
  | cons a l ih =>
    intro hp b hb
    rw [List.pairwise_cons] at hp
    by_cases ha : a < x
    · rw [List.dropWhile_cons, if_pos (by simpa using ha)] at hb
      exact ih hp.2 b hb
    · rw [List.dropWhile_cons, if_neg (by simpa using ha)] at hb
      rcases List.mem_cons.mp hb with rfl | hb'
      · exact le_of_not_lt ha
      · exact le_trans (le_of_not_lt ha) (hp.1 b hb')

theorem le_getD_of_twLen_le {ν : Type} [LinearOrder ν] {a : List ν} {x : ν} {i : Nat}
    (hs : a.Pairwise (· ≤ ·))
    (hT : (a.takeWhile (fun y => decide (y < x))).length ≤ i) (hia : i < a.length) :
    x ≤ a.getD i x := by
  rw [List.getD_eq_getElem a x hia]
  have hsplit := List.takeWhile_append_dropWhile (fun y => decide (y < x)) a
  have hlenadd : (a.takeWhile (fun y => decide (y < x))).length +
      (a.dropWhile (fun y => decide (y < x))).length = a.length := by
    have h1 := congrArg List.length hsplit
    rw [List.length_append] at h1
    exact h1
  have hlen : i - (a.takeWhile (fun y => decide (y < x))).length <
      (a.dropWhile (fun y => decide (y < x))).length := by omega
  have heq : a[i] =
      (a.dropWhile (fun y => decide (y < x)))[i - (a.takeWhile (fun y => decide (y < x))).length] := by
    have h1 := List.getElem_of_eq hsplit.symm hia
    rw [h1]
    exact List.getElem_append_right hT
  rw [heq]
  exact le_of_mem_dropWhile_lt x hs _ (List.getElem_mem hlen)

theorem bisectGo_eq {ν : Type} [LinearOrder ν] (a : List ν) (x : ν)
    (hs : a.Pairwise (· ≤ ·)) :
    ∀ (fuel lo hi : Nat), hi ≤ a.length → hi - lo ≤ fuel →
      lo ≤ (a.takeWhile (fun y => decide (y < x))).length →
      (a.takeWhile (fun y => decide (y < x))).length ≤ hi →
      bisectGo a x fuel lo hi = (a.takeWhile (fun y => decide (y < x))).length := by
  intro fuel
  induction fuel with
  | zero =>
    intro lo hi _ hf hlo hhi
    rw [bisectGo]
    omega
  | succ n ih =>
    intro lo hi hlen hf hlo hhi
    rw [bisectGo]
    by_cases hlt : lo < hi
    · rw [if_pos hlt]
      have hmidlt : (lo + hi) / 2 < hi := by omega
      have hmidlo : lo ≤ (lo + hi) / 2 := by omega
      have hmidlen : (lo + hi) / 2 < a.length := lt_of_lt_of_le hmidlt hlen
      by_cases hm : a.getD ((lo + hi) / 2) x < x
      · rw [if_pos hm]
        have hmT : (lo + hi) / 2 < (a.takeWhile (fun y => decide (y < x))).length := by
          by_contra hge
          push_neg at hge
          exact absurd (le_getD_of_twLen_le hs hge hmidlen) (not_le_of_lt hm)
        exact ih ((lo + hi) / 2 + 1) hi hlen (by omega) (by omega) hhi
      · rw [if_neg hm]
        have hTm : (a.takeWhile (fun y => decide (y < x))).length ≤ (lo + hi) / 2 := by
          by_contra h2
          push_neg at h2
          exact hm (getD_lt_of_lt_twLen h2)
        exact ih lo ((lo + hi) / 2) (le_of_lt (lt_of_lt_of_le hmidlt hlen)) (by omega) hlo hTm
    · rw [if_neg hlt]
      omega

theorem bisect_left_eq {ν : Type} [LinearOrder ν] (a : List ν) (x : ν)
    (hs : a.Pairwise (· ≤ ·)) :
    bisect_left a x = (a.takeWhile (fun y => decide (y < x))).length := by
  rw [bisect_left]
  exact bisectGo_eq a x hs a.length 0 a.length le_rfl (by omega) (Nat.zero_le _)
    (twLen_le_length a x)

/-! ### takeWhile and insertIdx helpers -/

theorem takeWhile_append_all {α : Type} (p : α → Bool) :
    ∀ (A B : List α), (∀ a ∈ A, p a = true) →
      (A ++ B).takeWhile p = A ++ B.takeWhile p := by
  intro A
  induction A with
  | nil => intro B _; rfl
  | cons a as ih =>
    intro B h
    rw [List.cons_append, List.takeWhile_cons, if_pos (h a (List.mem_cons_self a as)),
      ih B (fun u hu => h u (List.mem_cons_of_mem a hu)), List.cons_append]

theorem dropWhile_append_all {α : Type} (p : α → Bool) :
    ∀ (A B : List α), (∀ a ∈ A, p a = true) →
      (A ++ B).dropWhile p = B.dropWhile p := by
  intro A
  induction A with
  | nil => intro B _; rfl
  | cons a as ih =>
    intro B h
    rw [List.cons_append, List.dropWhile_cons, if_pos (h a (List.mem_cons_self a as))]
    exact ih B (fun u hu => h u (List.mem_cons_of_mem a hu))

theorem takeWhile_eq_nil_of_neg {α : Type} (p : α → Bool) :
    ∀ {B : List α}, (∀ b ∈ B, p b = false) → B.takeWhile p = [] := by
  intro B h
  cases B with
  | nil => rfl
  | cons b bs =>
    rw [List.takeWhile_cons, if_neg]
    rw [h b (List.mem_cons_self b bs)]
    exact Bool.false_ne_true

theorem dropWhile_eq_self_of_neg {α : Type} (p : α → Bool) :
    ∀ {B : List α}, (∀ b ∈ B, p b = false) → B.dropWhile p = B := by
  intro B h
  cases B with
  | nil => rfl
  | cons b bs =>
    rw [List.dropWhile_cons, if_neg]
    rw [h b (List.mem_cons_self b bs)]
    exact Bool.false_ne_true

theorem insertIdx_len_append {α : Type} (y : α) :
    ∀ (A B : List α), (A ++ B).insertIdx A.length y = A ++ y :: B := by
  intro A
  induction A with
  | nil => intro B; rfl
  | cons a as ih =>
    intro B
    rw [List.cons_append, List.length_cons, List.insertIdx_succ_cons, ih, List.cons_append]

/-! ### The push invariant -/

theorem push_step {ν : Type} [LinearOrder ν] [Inhabited ν] {sk : String}
    {c st : PageCollection ν} {d pd : PyDict ν}
    (h1 : c.sort_key = sk) (h2 : c.keys = c.pages.map (keyOf sk))
    (h3 : c.keys.Pairwise (· ≤ ·)) (hwf : (dictGet d sk).isSome = true)
    (hp : c.push d none = some (st, pd)) :
    st.sort_key = sk ∧ st.keys = st.pages.map (keyOf sk) ∧
      st.keys.Pairwise (· ≤ ·) ∧
      st.pages.reverse =
        (c.pages.reverse).takeWhile (fun e => decide (keyOf sk d ≤ keyOf sk e)) ++
          d :: (c.pages.reverse).dropWhile (fun e => decide (keyOf sk d ≤ keyOf sk e)) := by
  obtain ⟨k, hk⟩ := Option.isSome_iff_exists.mp hwf
  have hkd : keyOf sk d = k := by rw [keyOf, hk]; rfl
  have e1 : dictGet d c.sort_key = some k := by rw [h1]; exact hk
  rw [PageCollection.push] at hp
  simp only [e1, Option.some.injEq, Prod.mk.injEq] at hp
  obtain ⟨hst, hpd⟩ := hp
  subst hst
  have hcomp : ((fun y => decide (y < k)) ∘ keyOf sk) =
      (fun e : PyDict ν => decide (keyOf sk e < k)) := rfl
  have hsplitP := List.takeWhile_append_dropWhile
    (fun e => decide (keyOf sk e < k)) c.pages
  have hxval : bisect_left c.keys k =
      (c.pages.takeWhile (fun e => decide (keyOf sk e < k))).length := by
    rw [bisect_left_eq c.keys k h3, h2, List.takeWhile_map, hcomp, List.length_map]
  have hks : c.keys =
      (c.pages.takeWhile (fun e => decide (keyOf sk e < k))).map (keyOf sk) ++
        (c.pages.dropWhile (fun e => decide (keyOf sk e < k))).map (keyOf sk) := by
    rw [h2]
    conv_lhs => rw [← hsplitP]
    rw [List.map_append]
  have hpages : c.pages.insertIdx (bisect_left c.keys k) d =
      c.pages.takeWhile (fun e => decide (keyOf sk e < k)) ++
        d :: c.pages.dropWhile (fun e => decide (keyOf sk e < k)) := by
    rw [hxval]
    have hgen := insertIdx_len_append d
      (c.pages.takeWhile (fun e => decide (keyOf sk e < k)))
      (c.pages.dropWhile (fun e => decide (keyOf sk e < k)))
    rw [hsplitP] at hgen
    exact hgen
  have hkeys : c.keys.insertIdx (bisect_left c.keys k) k =
      (c.pages.takeWhile (fun e => decide (keyOf sk e < k))).map (keyOf sk) ++
        k :: (c.pages.dropWhile (fun e => decide (keyOf sk e < k))).map (keyOf sk) := by
    rw [hxval, hks]
    have hl : (c.pages.takeWhile (fun e => decide (keyOf sk e < k))).length =
        ((c.pages.takeWhile (fun e => decide (keyOf sk e < k))).map (keyOf sk)).length := by
      rw [List.length_map]
    rw [hl]
    exact insertIdx_len_append k _ _
  have hP1 : ∀ e ∈ c.pages.takeWhile (fun e => decide (keyOf sk e < k)),
      keyOf sk e < k := by
    intro e he
    exact of_decide_eq_true
      (@List.mem_takeWhile_imp _ (fun e => decide (keyOf sk e < k)) c.pages _ he)
  have hK2 : ∀ y ∈ (c.pages.dropWhile (fun e => decide (keyOf sk e < k))).map (keyOf sk),
      k ≤ y := by
    intro y hy
    have hdw : c.keys.dropWhile (fun y => decide (y < k)) =
        (c.pages.dropWhile (fun e => decide (keyOf sk e < k))).map (keyOf sk) := by
      rw [h2, List.dropWhile_map, hcomp]
    rw [← hdw] at hy
    exact le_of_mem_dropWhile_lt k h3 y hy
  have hP2 : ∀ e ∈ c.pages.dropWhile (fun e => decide (keyOf sk e < k)),
      k ≤ keyOf sk e := fun e he => hK2 _ (List.mem_map_of_mem _ he)
  have hK1 : ∀ a ∈ (c.pages.takeWhile (fun e => decide (keyOf sk e < k))).map (keyOf sk),
      a < k := by
    intro a ha
    rw [List.mem_map] at ha
    obtain ⟨e, he, rfl⟩ := ha
    exact hP1 e he
  refine ⟨h1, ?_, ?_, ?_⟩
  · -- keys mirror pages
    show c.keys.insertIdx (bisect_left c.keys k) k =
      (c.pages.insertIdx (bisect_left c.keys k) d).map (keyOf sk)
    rw [hkeys, hpages, List.map_append, List.map_cons, hkd]
  · -- sortedness
    show (c.keys.insertIdx (bisect_left c.keys k) k).Pairwise (· ≤ ·)
    rw [hkeys]
    have h3' := h3
    rw [hks, List.pairwise_append] at h3'
    obtain ⟨hpK1, hpK2, hcross⟩ := h3'
    rw [List.pairwise_append]
    refine ⟨hpK1, List.pairwise_cons.mpr ⟨fun b hb => hK2 b hb, hpK2⟩, ?_⟩
    intro a ha b hb
    rcases List.mem_cons.mp hb with rfl | hb'
    · exact le_of_lt (hK1 a ha)
    · exact le_trans (le_of_lt (hK1 a ha)) (hK2 b hb')
  · -- the reversed page list grows by a stable descending insert
    show (c.pages.insertIdx (bisect_left c.keys k) d).reverse = _
    simp only [hkd]
    rw [hpages, List.reverse_append, List.reverse_cons]
    conv_rhs => rw [← hsplitP]
    rw [List.reverse_append]
    have hTWr : ((c.pages.dropWhile (fun e => decide (keyOf sk e < k))).reverse ++
        (c.pages.takeWhile (fun e => decide (keyOf sk e < k))).reverse).takeWhile
          (fun e => decide (k ≤ keyOf sk e)) =
        (c.pages.dropWhile (fun e => decide (keyOf sk e < k))).reverse := by
      rw [takeWhile_append_all _ _ _
        (fun e he => decide_eq_true (hP2 e (List.mem_reverse.mp he)))]
      rw [takeWhile_eq_nil_of_neg _
        (fun e he => decide_eq_false (not_le_of_lt (hP1 e (List.mem_reverse.mp he))))]
      rw [List.append_nil]
    have hDWr : ((c.pages.dropWhile (fun e => decide (keyOf sk e < k))).reverse ++
        (c.pages.takeWhile (fun e => decide (keyOf sk e < k))).reverse).dropWhile
          (fun e => decide (k ≤ keyOf sk e)) =
        (c.pages.takeWhile (fun e => decide (keyOf sk e < k))).reverse := by
      rw [dropWhile_append_all _ _ _
        (fun e he => decide_eq_true (hP2 e (List.mem_reverse.mp he)))]
      exact dropWhile_eq_self_of_neg _
        (fun e he => decide_eq_false (not_le_of_lt (hP1 e (List.mem_reverse.mp he))))
    rw [hTWr, hDWr, List.append_assoc, List.singleton_append]

theorem pushSeq_append {ν : Type} [LinearOrder ν] (ds : List (PyDict ν)) :
    ∀ (c : PageCollection ν) (d : PyDict ν),
      pushSeq c (ds ++ [d]) =
        (pushSeq c ds).bind (fun c' => (c'.push d none).map Prod.fst) := by
  induction ds with
  | nil =>
    intro c d
    cases hp : c.push d none with
    | none => simp [pushSeq, hp]
    | some pr =>
      obtain ⟨c', pd⟩ := pr
      simp [pushSeq, hp]
  | cons e es ih =>
    intro c d
    rw [List.cons_append]
    cases hp : c.push e none with
    | none => simp [pushSeq, hp]
    | some pr =>
      obtain ⟨c', pd⟩ := pr
      simp [pushSeq, hp, ih c' d]

theorem pushSeq_inv {ν : Type} [LinearOrder ν] [Inhabited ν] (sk : String)
    (ds : List (PyDict ν)) (hwf : ∀ d ∈ ds, (dictGet d sk).isSome = true) :
    ∀ st, pushSeq (emptyCollection sk) ds = some st → collInv sk ds st := by
  induction ds using List.reverseRecOn with
  | nil =>
    intro st h
    have h' : (some (emptyCollection sk) : Option (PageCollection ν)) = some st := h
    have hst : emptyCollection sk = st := Option.some.inj h'
    subst hst
    exact ⟨rfl, rfl, List.Pairwise.nil, rfl⟩
  | append_singleton es d ih =>
    intro st h
    rw [pushSeq_append] at h
    cases hps : pushSeq (emptyCollection sk) es with
    | none => rw [hps] at h; simp at h
    | some c' =>
      rw [hps] at h
      have h2 : (c'.push d none).map Prod.fst = some st := h
      cases hp : c'.push d none with
      | none => rw [hp] at h2; simp at h2
      | some pr =>
        rw [hp] at h2
        obtain ⟨st2, pd⟩ := pr
        have hst : st2 = st := by simpa using h2
        subst hst
        have hwfes : ∀ e ∈ es, (dictGet e sk).isSome = true :=
          fun e he => hwf e (List.mem_append_left _ he)
        obtain ⟨i1, i2, i3, i4⟩ := ih hwfes c' hps
        obtain ⟨j1, j2, j3, j4⟩ := push_step i1 i2 i3
          (hwf d (List.mem_append_right _ (List.mem_singleton_self d))) hp
        refine ⟨j1, j2, j3, ?_⟩
        have hspec : specStableDescOrder sk (es ++ [d]) =
            (specStableDescOrder sk es).takeWhile
                (fun e => decide (keyOf sk d ≤ keyOf sk e)) ++
              d :: (specStableDescOrder sk es).dropWhile
                (fun e => decide (keyOf sk d ≤ keyOf sk e)) := by
          rw [specStableDescOrder, specStableDescOrder, List.foldl_append, List.foldl_cons,
            List.foldl_nil]
        rw [hspec, ← i4]
        exact j4

/-- C9: for every sequence of pushes into a `PageCollection`, records with
equal sort keys appear in `history(None)` and `all_pages()` in their original
insertion order: both views equal the stable descending sort of the pushed
records (`bisect_left` inserts a new record before existing equal-keyed ones
in the ascending internal list, and the reversed views therefore restore
insertion order among ties). -/
theorem pageCollection_ties_insertion_order {ν : Type} [LinearOrder ν] [Inhabited ν]
    (sk : String) (ds : List (PyDict ν))
    (hwf : ∀ d ∈ ds, (dictGet d sk).isSome = true)
    (st : PageCollection ν) (h : pushSeq (emptyCollection sk) ds = some st) :
    st.history none = specStableDescOrder sk ds ∧
      st.all_pages = specStableDescOrder sk ds := by
  obtain ⟨-, -, -, i4⟩ := pushSeq_inv sk ds hwf st h
  refine ⟨i4, ?_⟩
  show st.pages.reverse.take st.pages.length = _
  rw [← List.length_reverse, List.take_length]
  exact i4

/-- Witness for C9: pushing two records with equal key `1` and then one with
key `0`; in both views the equal-keyed records keep their push order. -/
theorem pageCollection_ties_insertion_order_witness :
    tiesResult.history none = specStableDescOrder ("date") tiesExample ∧
      tiesResult.all_pages = specStableDescOrder ("date") tiesExample :=
  pageCollection_ties_insertion_order ("date") tiesExample (by decide) tiesResult (by decide)

/-- C5: pushing records with sort keys `[3, 1, 2]` in that order yields the
finalized ascending order `[1, 2, 3]`; `history(2)` yields exactly the two
highest-keyed records most-recent-first; `history(None)` yields all records
most-recent-first. -/
theorem pageCollection_sorted_example :
    pushSeq (emptyCollection ("date")) sortedExample = some sortedExampleState ∧
      sortedExampleState.keys = [1, 2, 3] ∧
      sortedExampleState.history (some 2) = [[(("date"), 3)], [(("date"), 2)]] ∧
      sortedExampleState.history none =
        [[(("date"), 3)], [(("date"), 2)], [(("date"), 1)]] := by
  decide

/-- C10: `push(page_dict, additional_ctx)` with a non-`None` context leaves
the caller's `page_dict` unchanged (the merge happens on a copy), and the
stored record is the merge in which `additional_ctx` entries take precedence
over equal keys of `page_dict`. -/
theorem push_preserves_caller_dict {ν : Type} [LinearOrder ν]
    (c : PageCollection ν) (d ctx : PyDict ν)
    (hctx : (ctx.map Prod.fst).Nodup) (st : PageCollection ν) (pd : PyDict ν)
    (h : c.push d (some ctx) = some (st, pd)) :
    pd = d ∧ (∃ x, st.pages = c.pages.insertIdx x (dictUpdate d ctx)) ∧
      ∀ k, dictGet (dictUpdate d ctx) k = (dictGet ctx k).elim (dictGet d k) some := by
  rw [PageCollection.push] at h
  simp only [dictCopy] at h
  cases hg : dictGet (dictUpdate d ctx) c.sort_key with
  | none => rw [hg] at h; simp at h
  | some key =>
    rw [hg] at h
    simp only [Option.some.injEq, Prod.mk.injEq] at h
    obtain ⟨hst, hpd⟩ := h
    subst hst
    exact ⟨hpd.symm, ⟨bisect_left c.keys key, rfl⟩,
      fun k => dictGet_dictUpdate ctx d k hctx⟩

/-- Witness for C10: pushing a record whose `href` entry collides with the
additional context; the stored record takes `href` from the context and the
caller's record value is unchanged. -/
theorem push_preserves_caller_dict_witness :
    c10d = c10d ∧
      (∃ x, c10st.pages =
        (emptyCollection ("date") : PageCollection Int).pages.insertIdx x
          (dictUpdate c10d c10ctx)) ∧
      ∀ k, dictGet (dictUpdate c10d c10ctx) k =
        (dictGet c10ctx k).elim (dictGet c10d k) some :=
  push_preserves_caller_dict (emptyCollection ("date")) c10d c10ctx (by decide)
    c10st c10d (by decide)

/-! ### The matcher (claim C2) -/

theorem firstMatchingRule_eq_filter {α : Type} (path : String) (default : α) :
    ∀ rules : List (Pattern × α),
      firstMatchingRule rules path default =
        ((rules.filter (fun e => matchSingleRule e.1 path)).head?.map Prod.snd).getD default := by
  intro rules
  induction rules with
  | nil => rfl
  | cons r rest ih =>
    obtain ⟨pat, result⟩ := r
    by_cases hm : matchSingleRule pat path = true
    · simp [firstMatchingRule, hm, List.filter_cons]
    · simp only [firstMatchingRule]
      rw [if_neg (by simp [hm])]
      rw [List.filter_cons, if_neg (by simp [hm])]
      exact ih

theorem firstMatchingRule_eq_find {α : Type} (path : String) (default : α) :
    ∀ rules : List (Pattern × α),
      firstMatchingRule rules path default =
        ((rules.find? (fun e => matchSingleRule e.1 path)).map Prod.snd).getD default := by
  intro rules
  induction rules with
  | nil => rfl
  | cons r rest ih =>
    obtain ⟨pat, result⟩ := r
    by_cases hm : matchSingleRule pat path = true
    · rw [@List.find?_cons_of_pos _ (fun e => matchSingleRule e.1 path) (pat, result) _ hm]
      simp [firstMatchingRule, hm]
    · rw [@List.find?_cons_of_neg _ (fun e => matchSingleRule e.1 path) (pat, result) _
        (by simp [hm])]
      simp only [firstMatchingRule]
      rw [if_neg (by simp [hm])]
      exact ih

/-- C2: the matcher returns the result paired with the first pattern in the
table that glob-matches the path (`find?` characterisation), permuting entries
whose patterns do not match never changes the result (the result only depends
on the subsequence of matching entries), and when no pattern matches the
default no-match value `none` is returned. -/
theorem first_matching_rule_spec (α : Type) :
    (∀ (rules : List (Pattern × α)) (path : String) (default : α),
        firstMatchingRule rules path default =
          ((rules.find? (fun e => matchSingleRule e.1 path)).map Prod.snd).getD default) ∧
      (∀ (rules₁ rules₂ : List (Pattern × α)) (path : String) (default : α),
        rules₁.filter (fun e => matchSingleRule e.1 path) =
            rules₂.filter (fun e => matchSingleRule e.1 path) →
          firstMatchingRule rules₁ path default = firstMatchingRule rules₂ path default) ∧
      (∀ (rules : List (Pattern × Option α)) (path : String),
        (∀ e ∈ rules, matchSingleRule e.1 path = false) →
          firstMatchingRule rules path none = none) := by
  refine ⟨fun rules path default => firstMatchingRule_eq_find path default rules,
    fun rules₁ rules₂ path default hf => ?_, fun rules path h => ?_⟩
  · rw [firstMatchingRule_eq_filter path default rules₁,
      firstMatchingRule_eq_filter path default rules₂, hf]
  · rw [firstMatchingRule_eq_find path none rules]
    have hn : rules.find? (fun e => matchSingleRule e.1 path) = none := by
      rw [List.find?_eq_none]
      intro e he
      simp [h e he]
    rw [hn]
    rfl

/-- Witness for C2 on the repository's own matcher test table: path
`b/c/x.xyz` selects the grouped pattern (result `3`), the result is stable
under permuting the two non-matching entries, and an unmatched path yields
`none`. -/
theorem first_matching_rule_spec_witness :
    (firstMatchingRule matcherRules ("b/c/x.xyz") (0 : Nat) =
        ((matcherRules.find? (fun e => matchSingleRule e.1 ("b/c/x.xyz"))).map
          Prod.snd).getD 0) ∧
      firstMatchingRule matcherRules ("b/c/x.xyz") 0 =
        firstMatchingRule matcherRulesPerm ("b/c/x.xyz") 0 ∧
      firstMatchingRule skipRules ("totally_unrelated_file") none = none :=
  ⟨(first_matching_rule_spec Nat).1 matcherRules ("b/c/x.xyz") 0,
    (first_matching_rule_spec Nat).2.1 matcherRules matcherRulesPerm ("b/c/x.xyz") 0
      (by decide),
    (first_matching_rule_spec Nat).2.2 skipRules ("totally_unrelated_file") (by decide)⟩

/-! ### The build pass: two-phase structure (claims C1, C8, C3) -/

theorem notifyStep_shape {σ ρ δ : Type} (inf outf : String) (d : δ)
    (ls : List (String × Listener σ ρ δ × σ)) :
    ((notifyStep inf outf d ls).2).map (fun e => (e.1, e.2.1)) =
      ls.map (fun e => (e.1, e.2.1)) := by
  rw [notifyStep, List.map_map]
  rfl

theorem notifyData_shape {σ ρ δ : Type} :
    ∀ (dat : List (String × String × Option δ)) (ls : List (String × Listener σ ρ δ × σ)),
      ((notifyData dat ls).2).map (fun e => (e.1, e.2.1)) =
        ls.map (fun e => (e.1, e.2.1)) := by
  intro dat
  induction dat with
  | nil => intro ls; rfl
  | cons t rest ih =>
    intro ls
    obtain ⟨inf, outf, od⟩ := t
    cases od with
    | none => exact ih ls
    | some d =>
      show ((notifyData rest (notifyStep inf outf d ls).2).2).map _ = _
      rw [ih, notifyStep_shape]

theorem notifyData_not_act {σ ρ δ : Type} :
    ∀ (dat : List (String × String × Option δ)) (ls : List (String × Listener σ ρ δ × σ))
      (e : Event δ ρ), e ∈ (notifyData dat ls).1 → e.isAct = false := by
  intro dat
  induction dat with
  | nil => intro ls e he; simp [notifyData] at he
  | cons t rest ih =>
    intro ls e he
    obtain ⟨inf, outf, od⟩ := t
    cases od with
    | none => exact ih ls e he
    | some d =>
      have he' : e ∈ (notifyStep inf outf d ls).1 ++
          (notifyData rest (notifyStep inf outf d ls).2).1 := he
      rcases List.mem_append.mp he' with h1 | h2
      · rw [notifyStep, List.mem_filterMap] at h1
        obtain ⟨a, -, ha⟩ := h1
        by_cases hf : a.2.1.hasOnData = true
        · rw [if_pos hf] at ha
          have hae := Option.some.inj ha
          rw [← hae]
          rfl
        · rw [if_neg hf] at ha
          exact absurd ha (by simp)
      · exact ih _ e h2

theorem finalizeEvents_not_act {σ ρ δ : Type} (ls : List (String × Listener σ ρ δ × σ))
    (e : Event δ ρ) (he : e ∈ finalizeEvents ls) : e.isAct = false := by
  rw [finalizeEvents, List.mem_filterMap] at he
  obtain ⟨a, -, ha⟩ := he
  by_cases hf : a.2.1.hasBeforeExecute = true
  · rw [if_pos hf] at ha
    have hae := Option.some.inj ha
    rw [← hae]
    rfl
  · rw [if_neg hf] at ha
    exact absurd ha (by simp)

theorem phase1_not_act {σ ρ δ : Type}
    (rules : List (Pattern × Option (PathMap × ContentData δ)))
    (files : List String) (listeners : List (String × Listener σ ρ δ))
    (e : Event δ ρ) (he : e ∈ phase1Events rules files listeners) : e.isAct = false := by
  rw [phase1Events] at he
  by_cases hl : listeners.isEmpty = true
  · rw [if_pos hl] at he
    simp at he
  · rw [if_neg hl] at he
    rcases List.mem_append.mp he with h1 | h2
    · exact notifyData_not_act _ _ e h1
    · exact finalizeEvents_not_act _ e h2

theorem initStates_shape {σ ρ δ : Type} (listeners : List (String × Listener σ ρ δ)) :
    (initStates listeners).map (fun e => (e.1, e.2.1)) = listeners := by
  rw [initStates, List.map_map]
  have hco : ((fun e : String × Listener σ ρ δ × σ => (e.1, e.2.1)) ∘
      (fun e : String × Listener σ ρ δ => (e.1, e.2, e.2.init))) = id := by
    funext e
    rfl
  rw [hco, List.map_id]

theorem notifyData_mem_onData {σ ρ δ : Type} :
    ∀ (dat : List (String × String × Option δ)) (ls : List (String × Listener σ ρ δ × σ))
      (inf outf : String) (d : δ) (nm : String) (L : Listener σ ρ δ),
      (inf, outf, some d) ∈ dat →
      (nm, L) ∈ ls.map (fun e => (e.1, e.2.1)) → L.hasOnData = true →
      Event.onData nm inf outf d ∈ (notifyData dat ls).1 := by
  intro dat
  induction dat with
  | nil => intro ls inf outf d nm L hmem _ _; simp at hmem
  | cons t rest ih =>
    intro ls inf outf d nm L hmem hshape hflag
    obtain ⟨inf', outf', od⟩ := t
    rcases List.mem_cons.mp hmem with heq | htail
    · obtain ⟨h1, h2, h3⟩ : inf = inf' ∧ outf = outf' ∧ some d = od := by
        rw [Prod.mk.injEq, Prod.mk.injEq] at heq
        exact ⟨heq.1, heq.2.1, heq.2.2⟩
      subst h1; subst h2; subst h3
      refine List.mem_append.mpr (Or.inl ?_)
      rw [notifyStep, List.mem_filterMap]
      rw [List.mem_map] at hshape
      obtain ⟨a, ha, hae⟩ := hshape
      refine ⟨a, ha, ?_⟩
      have ha1 : a.1 = nm := congrArg Prod.fst hae
      have ha2 : a.2.1 = L := congrArg Prod.snd hae
      rw [ha2, if_pos hflag, ha1]
    · cases od with
      | none => exact ih ls inf outf d nm L htail hshape hflag
      | some d' =>
        refine List.mem_append.mpr (Or.inr ?_)
        refine ih _ inf outf d nm L htail ?_ hflag
        rw [notifyStep_shape]
        exact hshape

theorem finalizeEvents_mem {σ ρ δ : Type} (ls : List (String × Listener σ ρ δ × σ))
    (nm : String) (L : Listener σ ρ δ)
    (hshape : (nm, L) ∈ ls.map (fun e => (e.1, e.2.1)))
    (hflag : L.hasBeforeExecute = true) :
    (Event.beforeExecute nm : Event δ ρ) ∈ finalizeEvents ls := by
  rw [finalizeEvents, List.mem_filterMap]
  rw [List.mem_map] at hshape
  obtain ⟨a, ha, hae⟩ := hshape
  refine ⟨a, ha, ?_⟩
  have ha1 : a.1 = nm := congrArg Prod.fst hae
  have ha2 : a.2.1 = L := congrArg Prod.snd hae
  rw [ha2, if_pos hflag, ha1]

/-- C1: in every successful build pass, no deferred action is invoked before
every file's observation data has been delivered to the listeners'
`on_data_return` hooks and `before_execute` has been called on every
listener; every deferred action receives the finalized aggregate-state map.
Conjuncts: every action event comes strictly after every non-action event;
every action event carries exactly the finalized exec state; every listener
with a `before_execute` hook has a finalize event in the trace; and every
non-`None` observation triple is delivered to every listener with an
`on_data_return` hook. -/
theorem build_no_act_before_finalize {σ ρ δ : Type}
    (rules : List (Pattern × Option (PathMap × ContentData δ)))
    (files : List String) (listeners : List (String × Listener σ ρ δ))
    (tr : List (Event δ ρ)) (h : build rules files listeners = Except.ok tr) :
    (∀ (i j : Nat) (hi : i < tr.length) (hj : j < tr.length),
        (tr[i]).isAct = true → (tr[j]).isAct = false → j < i) ∧
      (∀ e ∈ tr, e.isAct = true →
        ∃ f o, e = Event.act f o (execStateOf rules files listeners)) ∧
      (∀ nm L, (nm, L) ∈ listeners → L.hasBeforeExecute = true →
        Event.beforeExecute nm ∈ tr) ∧
      (∀ trip ∈ (lazyEvaluateRules rules files).map Prod.fst, ∀ d : δ,
        trip.2.2 = some d → ∀ nm L, (nm, L) ∈ listeners → L.hasOnData = true →
          Event.onData nm trip.1 trip.2.1 d ∈ tr) := by
  rw [build] at h
  cases hlz : lazyEvaluateRules rules files with
  | nil =>
    rw [hlz] at h
    exact absurd h (by simp)
  | cons p ps =>
    rw [hlz] at h
    have htr := (Except.ok.inj h).symm
    subst htr
    have hA : ∀ e ∈ phase1Events rules files listeners, Event.isAct e = false :=
      fun e he => phase1_not_act rules files listeners e he
    have hB : ∀ e ∈ (((p :: ps).map Prod.snd).map (fun e =>
        Event.act e.1 e.2 (execStateOf rules files listeners)) : List (Event δ ρ)),
        Event.isAct e = true := by
      intro e he
      rw [List.mem_map] at he
      obtain ⟨a, -, rfl⟩ := he
      rfl
    refine ⟨?_, ?_, ?_, ?_⟩
    · intro i j hi hj hacti hactj
      have hiA : (phase1Events rules files listeners).length ≤ i := by
        by_contra hlt
        push_neg at hlt
        have hmem : (phase1Events rules files listeners ++
            ((p :: ps).map Prod.snd).map (fun e =>
              Event.act e.1 e.2 (execStateOf rules files listeners)))[i] ∈
            phase1Events rules files listeners := by
          rw [List.getElem_append_left hlt]
          exact List.getElem_mem hlt
        rw [hA _ hmem] at hacti
        exact absurd hacti (by simp)
      have hjA : j < (phase1Events rules files listeners).length := by
        by_contra hge
        push_neg at hge
        have hj' : j - (phase1Events rules files listeners).length <
            ((((p :: ps).map Prod.snd).map (fun e =>
              Event.act e.1 e.2 (execStateOf rules files listeners)) :
                List (Event δ ρ))).length := by
          rw [List.length_append] at hj
          omega
        have hmem : (phase1Events rules files listeners ++
            ((p :: ps).map Prod.snd).map (fun e =>
              Event.act e.1 e.2 (execStateOf rules files listeners)))[j] ∈
            ((p :: ps).map Prod.snd).map (fun e =>
              Event.act e.1 e.2 (execStateOf rules files listeners)) := by
          rw [List.getElem_append_right hge]
          exact List.getElem_mem hj'
        rw [hB _ hmem] at hactj
        exact absurd hactj (by simp)
      omega
    · intro e he hact
      rcases List.mem_append.mp he with h1 | h2
      · rw [hA e h1] at hact
        exact absurd hact (by simp)
      · rw [List.mem_map] at h2
        obtain ⟨a, -, rfl⟩ := h2
        exact ⟨a.1, a.2, rfl⟩
    · intro nm L hmem hflag
      have hne : listeners.isEmpty = false := by
        cases listeners with
        | nil => simp at hmem
        | cons x xs => rfl
      refine List.mem_append.mpr (Or.inl ?_)
      rw [phase1Events, if_neg (by rw [hne]; exact Bool.false_ne_true)]
      refine List.mem_append.mpr (Or.inr ?_)
      refine finalizeEvents_mem _ nm L ?_ hflag
      rw [notifyData_shape, initStates_shape]
      exact hmem
    · intro trip htrip d hd nm L hmem hflag
      have hne : listeners.isEmpty = false := by
        cases listeners with
        | nil => simp at hmem
        | cons x xs => rfl
      refine List.mem_append.mpr (Or.inl ?_)
      rw [phase1Events, if_neg (by rw [hne]; exact Bool.false_ne_true)]
      refine List.mem_append.mpr (Or.inl ?_)
      refine notifyData_mem_onData _ _ trip.1 trip.2.1 d nm L ?_ ?_ hflag
      · have hteta : trip = (trip.1, trip.2.1, some d) := by rw [← hd]
        rw [← hteta, hlz]
        exact htrip
      · rw [initStates_shape]
        exact hmem

/-- Witness for C1: in the concrete pass over `buildFiles0`, the action event
of `a.md` carries exactly the finalized exec state. -/
theorem build_no_act_before_finalize_witness :
    ∃ f o, (Event.act ("a.md") ("a.md.html") [(("agg"), 10)] : Event Nat Nat) =
      Event.act f o (execStateOf buildRules0 buildFiles0 buildListeners0) :=
  (build_no_act_before_finalize buildRules0 buildFiles0 buildListeners0 buildTrace0
      (by decide)).2.1
    (Event.act ("a.md") ("a.md.html") [(("agg"), 10)]) (by decide) (by decide)

theorem lazyEvaluateRules_snd {δ : Type}
    (rules : List (Pattern × Option (PathMap × ContentData δ))) :
    ∀ files : List String,
      (lazyEvaluateRules rules files).map Prod.snd = executedPairs rules files := by
  intro files
  induction files with
  | nil => rfl
  | cons f fs ih =>
    show ((f :: fs).filterMap _).map Prod.snd = (f :: fs).filterMap _
    rw [List.filterMap_cons, List.filterMap_cons]
    cases hr : firstMatchingRule rules f none with
    | none =>
      simp only [hr]
      exact ih
    | some pr =>
      obtain ⟨pm, ct⟩ := pr
      simp only [hr, List.map_cons]
      exact congrArg (List.cons _) ih

/-- C8: in every successful build pass, the deferred actions run in exactly
the order of the files that produced them (enumeration order restricted to
files with a non-skip matching rule), each receiving the same finalized
aggregate-state map. -/
theorem build_actions_in_file_order {σ ρ δ : Type}
    (rules : List (Pattern × Option (PathMap × ContentData δ)))
    (files : List String) (listeners : List (String × Listener σ ρ δ))
    (tr : List (Event δ ρ)) (h : build rules files listeners = Except.ok tr) :
    tr.filter Event.isAct =
      (executedPairs rules files).map
        (fun e => Event.act e.1 e.2 (execStateOf rules files listeners)) := by
  rw [build] at h
  cases hlz : lazyEvaluateRules rules files with
  | nil =>
    rw [hlz] at h
    exact absurd h (by simp)
  | cons p ps =>
    rw [hlz] at h
    have htr := (Except.ok.inj h).symm
    subst htr
    rw [List.filter_append]
    have hA : (phase1Events rules files listeners).filter Event.isAct = [] := by
      rw [List.filter_eq_nil_iff]
      intro e he
      rw [phase1_not_act rules files listeners e he]
      simp
    have hB : ((((p :: ps).map Prod.snd).map (fun e =>
        Event.act e.1 e.2 (execStateOf rules files listeners)) : List (Event δ ρ))).filter
          Event.isAct =
        ((p :: ps).map Prod.snd).map (fun e =>
          Event.act e.1 e.2 (execStateOf rules files listeners)) := by
      rw [List.filter_eq_self]
      intro e he
      rw [List.mem_map] at he
      obtain ⟨a, -, rfl⟩ := he
      rfl
    rw [hA, hB, List.nil_append, ← hlz, lazyEvaluateRules_snd]

/-- Witness for C8 on the concrete pass over `buildFiles0`. -/
theorem build_actions_in_file_order_witness :
    buildTrace0.filter Event.isAct =
      (executedPairs buildRules0 buildFiles0).map
        (fun e => Event.act e.1 e.2 (execStateOf buildRules0 buildFiles0 buildListeners0)) :=
  build_actions_in_file_order buildRules0 buildFiles0 buildListeners0 buildTrace0 (by decide)

/-- C3: evaluation of the skip semantics of `build_env.build`.  A file with
no matching rule or a skip-marker rule contributes no event, no execution and
no data (second conjunct: adding such files does not change the trace), but
when no file at all produces an execution the pass does not complete: the
tuple unpacking `dat, executions = zip(*...)` in `evaluate_rules` raises
`ValueError` (first conjunct), contradicting the claim that the build pass
always completes without error. -/
theorem build_skip_semantics_eval :
    build buildRules0 [("b.txt"), ("d.tmp")] buildListeners0 =
        Except.error ("ValueError: not enough values to unpack (expected 2, got 0)") ∧
      build buildRules0 [("a.md"), ("b.txt"), ("d.tmp")] buildListeners0 =
        build buildRules0 [("a.md")] buildListeners0 := by
  exact ⟨by decide, by decide⟩

/-! ### Call-shape dispatch (claim C4) -/

/-- C4: dispatch of the three call shapes.  Shapes one and two are selected
in priority order (first two conjuncts, on `_execute_callable_as_filemap`
with its resolved paths); for a text-transform callable of the third shape,
`FileMapper.execute` reads the input contents, applies the callable and
writes the result (third conjunct) — but `_execute_callable_as_filemap`
raises `NameError` instead (fourth conjunct): its fallback branch refers to
the undefined names `op`, `inf` and `outf`, contradicting the claim and the
docstring of `FileMapExecutionRule` directly above it. -/
theorem execute_callable_shapes_eval :
    (executeCallableAsFilemap (PyCallable.twoArg (fun a b st => (b, a) :: st))
        ("src") ("out") ("a.txt") ("a.html") [(("src/a.txt"), ("hi"))] =
      Except.ok [(("out/a.html"), ("src/a.txt")), (("src/a.txt"), ("hi"))]) ∧
    (executeCallableAsFilemap (PyCallable.threeArg (fun st a b => (b, a) :: st))
        ("src") ("out") ("a.txt") ("a.html") [(("src/a.txt"), ("hi"))] =
      Except.ok [(("a.html"), ("a.txt")), (("src/a.txt"), ("hi"))]) ∧
    (fileMapperExecute (PyCallable.oneArg (fun s => s ++ s))
        ("src/a.txt") ("out/a.html") [(("src/a.txt"), ("hi"))] =
      Except.ok [(("out/a.html"), ("hihi")), (("src/a.txt"), ("hi"))]) ∧
    (executeCallableAsFilemap (PyCallable.oneArg (fun s => s ++ s))
        ("src") ("out") ("a.txt") ("a.html") [(("src/a.txt"), ("hi"))] =
      Except.error PyErr.nameError) := by
  exact ⟨by decide, by decide, by decide, by decide⟩

end Jssg
